import Mathlib

/-!
# here3: static INT3 instrumentation of an x86 executable

A shallow embedding of `src/main.cc`:

* the output-path derivation of `insertPayload` (lines 45-48), over the POSIX
  pathname strings of `std::filesystem::path`;
* the symbol table `functionOffset` (line 93) and the DWARF walk filling it
  (lines 111-123);
* the name filter building `offsets` (lines 130-134);
* `insertPayload` (lines 30-84) as a function on an explicit file-system state
  that also records the trace of the operations it performs;
* `main` (lines 86-138) with the object loader's answer taken as an input.

Machine integers are natural numbers; the conversion of the 64-bit `low` to the
32-bit `unsigned` of the table is an explicit reduction modulo `2 ^ 32`.
-/

namespace Here3

/-! ## Paths (`std::filesystem::path`, POSIX pathname strings) -/

/-- The native pathname string held by a `std::filesystem::path`. -/
abbrev Path := List Char

/-- The final filename component: everything after the last directory separator
(empty when the pathname ends in a separator). -/
def filename (p : Path) : Path :=
  p.rtakeWhile (fun c => c != '/')

/-- The pathname up to and including the last directory separator. -/
def parentPart (p : Path) : Path :=
  p.rdropWhile (fun c => c != '/')

/-- The position of the last occurrence of `c`, as `std::string::rfind(c)`;
`none` stands for `npos`. -/
def rfind (c : Char) : List Char → Option Nat
  | [] => none
  | x :: xs =>
    match rfind c xs with
    | some i => some (i + 1)
    | none => if x = c then some 0 else none

/-- Where the extension of a filename starts, as `path::extension()` decides it:
an empty filename, `.` and `..` have none, a dot in first position does not start
one, otherwise it starts at the last dot. -/
def findExtension (s : List Char) : Option Nat :=
  if s.length = 0 then none
  else if s.length ≤ 2 ∧ s.head? = some '.' then none
  else
    match rfind '.' s with
    | some 0 => none
    | some pos => some pos
    | none => none

/-- The result of `path::extension()`, the dot included. -/
def extension (p : Path) : Path :=
  match findExtension (filename p) with
  | some pos => (filename p).drop pos
  | none => []

/-- The effect of `path::replace_extension(replacement)`: the current extension is
erased, a dot is added when the replacement is not empty and does not start with
one, and the replacement is appended. -/
def replaceExtension (p : Path) (replacement : Path) : Path :=
  let erased :=
    match findExtension (filename p) with
    | some pos => p.take ((parentPart p).length + pos)
    | none => p
  let dotted :=
    if replacement ≠ [] ∧ replacement.head? ≠ some '.' then erased ++ ['.'] else erased
  dotted ++ replacement

/-- The marker put in front of the extension (line 47). -/
def marker : Path := ".here3".toList

/-- Lines 46-48: `outPath` as derived from `inPath`. -/
def outPathOf (inPath : Path) : Path :=
  let outExtension := marker ++ extension inPath
  replaceExtension inPath outExtension

/-! ## The symbol table and the DWARF walk -/

/-- The table `std::map<std::string, unsigned> functionOffset`, seen through the two
operations the program uses on it (`operator[]` assignment and `find`); its
iteration order, used by the DEBUG dump only, is not represented. -/
abbrev SymbolTable := List (String × Nat)

/-- The lookup `functionOffset.find(key)`: the stored pair, `none` for `end()`. -/
def find (tbl : SymbolTable) (key : String) : Option (String × Nat) :=
  tbl.find? (fun kv => kv.1 == key)

/-- The assignment `functionOffset[key] = value`: overwrites the value of an
existing key, inserts the key otherwise. -/
def assign : SymbolTable → String → Nat → SymbolTable
  | [], key, value => [(key, value)]
  | kv :: rest, key, value =>
    if kv.1 = key then (key, value) :: rest else kv :: assign rest key value

/-- Conversion of an integer to `unsigned` (32 bits). -/
def toUnsigned (x : Nat) : Nat :=
  x % 2 ^ 32

/-- What the program asks of a debug-info entry. -/
structure Die where
  /-- The answer of `isSubprogramDIE()`. -/
  isSubprogramDIE : Bool
  /-- The answer of `getLowAndHighPC`: `low`, `high` and `section_idx` when it succeeds. -/
  lowAndHighPC : Option (Nat × Nat × Nat)
  /-- The answer of `getShortName()`, `none` for a null pointer. -/
  shortName : Option String
  /-- The answer of `getLinkageName()`, `none` for a null pointer. -/
  linkageName : Option String

/-- Lines 115-121: the body of the inner loop, for one entry. -/
def gatherDie (functionOffset : SymbolTable) (die : Die) : SymbolTable :=
  if die.isSubprogramDIE then
    match die.lowAndHighPC with
    | some (low, _, _) =>
      let withShort :=
        match die.shortName with
        | some sname => assign functionOffset sname (toUnsigned low)
        | none => functionOffset
      match die.linkageName with
      | some lname => assign withShort lname (toUnsigned low)
      | none => withShort
    | none => functionOffset
  else functionOffset

/-- Line 113: the loop over the entries of one compile unit. -/
def gatherUnit (functionOffset : SymbolTable) (cu : List Die) : SymbolTable :=
  cu.foldl gatherDie functionOffset

/-- Lines 112-123: the loop over the compile units, from the empty table. -/
def gatherOffsets (compileUnits : List (List Die)) : SymbolTable :=
  compileUnits.foldl gatherUnit []

/-- The pair type `NameOffsetPair`. -/
abbrev NameOffsetPair := String × Nat

/-- Lines 131-134: the loop building `offsets` from the requested names. -/
def filterNames (functionOffset : SymbolTable) (funcNames : List String) :
    List NameOffsetPair :=
  funcNames.foldl
    (fun offsets str =>
      match find functionOffset str with
      | some kv => offsets ++ [(kv.1, kv.2)]
      | none => offsets)
    []

/-! ## The patcher on an explicit file system -/

/-- The regular files and the names they have. Several paths may name one file (hard
links, symbolic links): a path names the file of its target, and two paths with the
same target name the same file. Every path names a regular file or no file; paths
naming a directory or a device are not represented. -/
structure FileSys where
  /-- The file a path names, links followed. -/
  target : Path → Path
  /-- The bytes of the file of each target, `none` when there is no such file. -/
  content : Path → Option (List Nat)

/-- The bytes of the file the path `p` names, `none` when it names no file. -/
def FileSys.read (fs : FileSys) (p : Path) : Option (List Nat) :=
  fs.content (fs.target p)

/-- The state after the file the path `p` names has been given the content `bytes`,
the file being created when there was none: every path naming that file sees it. -/
def FileSys.store (fs : FileSys) (p : Path) (bytes : List Nat) : FileSys :=
  ⟨fs.target, fun t => if t = fs.target p then some bytes else fs.content t⟩

/-- How the write of the buffer to the output stream ends. -/
inductive WriteResult where
  /-- All the bytes reach the file. -/
  | complete
  /-- Only the first `reached` bytes reach the file. The stream being buffered, the
  failure may surface only when the file is closed: `reported` tells whether the stream
  is in error when line 80 tests it. -/
  | failed (reached : Nat) (reported : Bool)
deriving DecidableEq

/-- The failures the operating system may answer with. -/
structure Env where
  /-- Opening this existing file for reading fails. -/
  openFails : Path → Bool
  /-- Creating or truncating this file fails. -/
  createFails : Path → Bool
  /-- Reading the whole of this file fails. -/
  readFails : Path → Bool
  /-- How writing to this file ends. -/
  write : Path → WriteResult

/-- The messages of the program. -/
inductive Msg where
  /-- Line 33: "No offsets found, nothing to do... sorry." -/
  | nothingToDo
  /-- Line 41: "Error opening " and the name. -/
  | errorOpening (fname : Path)
  /-- Line 51: "Error creating or truncating file: " and the path. -/
  | errorCreating (outPath : Path)
  /-- Line 60: "Error reading input file " and the path. -/
  | errorReading (inPath : Path)
  /-- Line 69: "Invalid offset found. Exiting..." -/
  | invalidOffset
  /-- Line 73: "[+] Instrumenting " and the name. -/
  | instrumenting (name : String)
  /-- Line 81: "Error writing instrumented output file." -/
  | errorWriting
  /-- Line 106: "Error: Input file must be an x86 (32 or 64bit) executable." -/
  | unsupportedInput
deriving DecidableEq

/-- The operations a run performs, in order. -/
inductive Event where
  /-- A message on `llvm::outs()`. -/
  | outs (m : Msg)
  /-- A message on `llvm::errs()`. -/
  | errs (m : Msg)
  /-- Line 39: opening the input file. -/
  | openInput (p : Path)
  /-- Line 49: creating or truncating the output file. -/
  | createOutput (p : Path)
  /-- Line 58: reading `n` bytes of the input file into the buffer. -/
  | readInput (p : Path) (n : Nat)
  /-- Line 74: the assignment `buf[offset] = value`. -/
  | bufStore (offset : Nat) (value : Nat)
  /-- Line 78: writing the buffer to the output file. -/
  | writeOutput (p : Path) (buf : List Nat)
deriving DecidableEq

/-- A run of the patcher: the file system it leaves and what it did. -/
structure Run where
  /-- The file system when the patcher returns. -/
  fs : FileSys
  /-- The operations performed. -/
  trace : List Event

/-- The buffers handed to the write step of line 78, with their paths. -/
def written : List Event → List (Path × List Nat)
  | [] => []
  | Event.writeOutput p buf :: rest => (p, buf) :: written rest
  | _ :: rest => written rest

/-- The file operations of a trace (open, create, read, write). -/
def fileOps : List Event → List Event
  | [] => []
  | Event.outs _ :: rest => fileOps rest
  | Event.errs _ :: rest => fileOps rest
  | Event.bufStore _ _ :: rest => fileOps rest
  | e :: rest => e :: fileOps rest

/-- The instrumentation byte, INT3. -/
def int3 : Nat := 0xCC

/-- Lines 66-75: the loop over the request. It gives the operations performed and the
buffer when every pair passed the bounds check, `none` when the loop returned on an
invalid offset. -/
def applyOffsets (inSize : Nat) : List NameOffsetPair → List Nat → List Event × Option (List Nat)
  | [], buf => ([], some buf)
  | pr :: rest, buf =>
    let offset := pr.2
    if offset ≥ inSize then ([Event.errs Msg.invalidOffset], none)
    else
      let r := applyOffsets inSize rest (buf.set offset int3)
      (Event.outs (Msg.instrumenting pr.1) :: Event.bufStore offset int3 :: r.1, r.2)

/-- Lines 30-84. The output is created or truncated (line 49) before the size of the
input is taken and the input is read (lines 56-58), so the image loaded is the content
of the input after that step. The case in which the input names no file when its size
is taken (`fs::file_size` throws) is kept for totality; it cannot occur, the input
having been opened and no file having been removed since. -/
def insertPayload (env : Env) (fs : FileSys) (fname : Path)
    (offsets : List NameOffsetPair) : Run :=
  if offsets.isEmpty then ⟨fs, [Event.outs Msg.nothingToDo]⟩
  else
    let inPath := fname
    if (fs.read inPath).isNone || env.openFails inPath then
      ⟨fs, [Event.openInput inPath, Event.errs (Msg.errorOpening fname)]⟩
    else
      let outPath := outPathOf inPath
      if env.createFails outPath then
        ⟨fs, [Event.openInput inPath, Event.createOutput outPath,
              Event.errs (Msg.errorCreating outPath)]⟩
      else
        let fs1 := fs.store outPath []
        match fs1.read inPath with
        | none => ⟨fs1, [Event.openInput inPath, Event.createOutput outPath]⟩
        | some image =>
          let inSize := image.length
          let opened :=
            [Event.openInput inPath, Event.createOutput outPath, Event.readInput inPath inSize]
          if env.readFails inPath then
            ⟨fs1, opened ++ [Event.errs (Msg.errorReading inPath)]⟩
          else
            match applyOffsets inSize offsets image with
            | (patching, none) => ⟨fs1, opened ++ patching⟩
            | (patching, some buf) =>
              match env.write outPath with
              | WriteResult.complete =>
                ⟨fs1.store outPath buf, opened ++ patching ++ [Event.writeOutput outPath buf]⟩
              | WriteResult.failed reached reported =>
                ⟨fs1.store outPath (buf.take reached),
                  opened ++ patching ++ [Event.writeOutput outPath buf] ++
                    (if reported then [Event.errs Msg.errorWriting] else [])⟩

/-! ## The program -/

/-- The architectures the program tells apart (`llvm::Triple::ArchType`). -/
inductive Arch where
  | x86
  | x86_64
  | other
deriving DecidableEq

/-- What the program asks of the loaded object file. -/
structure ObjectFile where
  /-- The answer of `isRelocatableObject()`. -/
  isRelocatableObject : Bool
  /-- The answer of `getArch()`. -/
  arch : Arch
  /-- The entries of the compile units of the DWARF context, in traversal order. -/
  compileUnits : List (List Die)

/-- The answer of the object loader (lines 96-101). -/
inductive Loaded where
  /-- The call `getFileOrSTDIN` failed with this error value. -/
  | bufferError (value : Int)
  /-- The call `createBinary` failed. -/
  | binaryError
  /-- The binary is not an object file: `dyn_cast` gives a null pointer. -/
  | notObjectFile
  /-- An object file. -/
  | object (obj : ObjectFile)

/-- The end of a run of `main`. -/
structure MainResult where
  /-- The value `main` returns. -/
  ret : Int
  /-- The file system at exit. -/
  fs : FileSys
  /-- The operations performed. -/
  trace : List Event

/-- Lines 86-138. The result is `none` where the program dereferences the null pointer
of a binary that is not an object file (line 102). -/
def main (loaded : Loaded) (env : Env) (fs : FileSys) (inputFilename : Path)
    (funcNames : List String) : Option MainResult :=
  match loaded with
  | Loaded.bufferError value => some ⟨value, fs, []⟩
  | Loaded.binaryError => some ⟨-1, fs, []⟩
  | Loaded.notObjectFile => none
  | Loaded.object obj =>
    if obj.isRelocatableObject || (obj.arch != Arch.x86 && obj.arch != Arch.x86_64) then
      some ⟨-1, fs, [Event.errs Msg.unsupportedInput]⟩
    else
      let functionOffset := gatherOffsets obj.compileUnits
      let offsets := filterNames functionOffset funcNames
      let run := insertPayload env fs inputFilename offsets
      some ⟨0, run.fs, run.trace⟩

/-- The exit status the parent process sees: the low eight bits of the returned value. -/
def exitStatus (ret : Int) : Int :=
  ret % 256

/-! ## The output path as the specification words it -/

/-- The split of a filename the specification describes: at its last dot, the
extension being the last dot-suffix; a filename without a dot has no extension. -/
def specSplit (f : Path) : Path × Path :=
  match rfind '.' f with
  | some pos => (f.take pos, f.drop pos)
  | none => (f, [])

/-- The output path the specification describes: the marker put between the base
and the extension of the filename, the directory part kept. -/
def specOutPath (p : Path) : Path :=
  parentPart p ++ (specSplit (filename p)).1 ++ marker ++ (specSplit (filename p)).2

/-- The filenames whose last dot does not start an extension: `..`, and the names
whose only dot comes first (`.`, `.bashrc`). -/
def leadingDotName (f : Path) : Bool :=
  f == ['.', '.'] || rfind '.' f == some 0

/-! ## The symbol table as the specification words it -/

/-- The keys of a table. -/
def keys (tbl : SymbolTable) : List String :=
  tbl.map Prod.fst

/-- The name filter as the specification describes it: walking the requested names
in order, a name that is a key gives the pair of the name and the offset the table
holds for it, a name that is not gives nothing. -/
def specFilter (tbl : SymbolTable) : List String → List NameOffsetPair
  | [] => []
  | n :: rest =>
    match tbl.lookup n with
    | some offset => (n, offset) :: specFilter tbl rest
    | none => specFilter tbl rest

/-- A subprogram entry with both names and the given address range. -/
def subprogram (sname lname : String) (low high : Nat) : Die :=
  ⟨true, some (low, high, 0), some sname, some lname⟩

/-! ## Concrete inputs -/

/-- An operating system that answers with no failure. -/
def noFailure : Env :=
  ⟨fun _ => false, fun _ => false, fun _ => false, fun _ => WriteResult.complete⟩

/-- A file system without links holding the single file `a.out`, of four bytes. -/
def fourBytes : FileSys :=
  ⟨fun p => p, fun t => if t = "a.out".toList then some [0x55, 0x48, 0x89, 0xC3] else none⟩

/-- The file `a.out` of four bytes with `a.here3.out` as a second name (a link). -/
def linkedOutput : FileSys :=
  ⟨fun p => if p = "a.here3.out".toList then "a.out".toList else p,
    fun t => if t = "a.out".toList then some [0x55, 0x48, 0x89, 0xC3] else none⟩

/-- An executable for x86-64 with one compile unit holding the given entries. -/
def executable (dies : List Die) : ObjectFile :=
  ⟨false, Arch.x86_64, [dies]⟩

/-- The file system `fourBytes` with an older output file of three bytes in place. -/
def withOldOutput : FileSys :=
  fourBytes.store "a.here3.out".toList [1, 2, 3]

/-! ## Paths: lemmas -/

theorem parentPart_append_filename (p : Path) : parentPart p ++ filename p = p := by
  unfold parentPart filename List.rdropWhile List.rtakeWhile
  rw [← List.reverse_append, List.takeWhile_append_dropWhile, List.reverse_reverse]

theorem rfind_lt (c : Char) (s : List Char) (pos : Nat) (h : rfind c s = some pos) :
    pos < s.length := by
  induction s generalizing pos with
  | nil => simp [rfind] at h
  | cons x xs ih =>
    simp only [rfind] at h
    cases hr : rfind c xs with
    | some i =>
      rw [hr] at h
      simp only [Option.some.injEq] at h
      have := ih i hr
      simp only [List.length_cons]
      omega
    | none =>
      rw [hr] at h
      by_cases hx : x = c
      · simp [hx] at h
        simp [← h]
      · simp [hx] at h

theorem findExtension_eq (f : Path) :
    findExtension f = if leadingDotName f then none else rfind '.' f := by
  unfold findExtension leadingDotName
  match f with
  | [] => simp [rfind]
  | [a] =>
    by_cases ha : a = '.'
    · subst ha; simp [rfind]
    · simp [rfind, ha]
  | [a, b] =>
    by_cases ha : a = '.'
    · subst ha
      by_cases hb : b = '.'
      · subst hb; simp [rfind]
      · simp [rfind, hb]
    · by_cases hb : b = '.'
      · subst hb; simp [rfind, ha]
      · simp [rfind, ha, hb]
  | a :: b :: c :: rest =>
    simp only [List.length_cons]
    cases hr : rfind '.' (a :: b :: c :: rest) with
    | none => simp
    | some pos =>
      cases pos with
      | zero => simp
      | succ n => simp

theorem marker_head (e : Path) :
    ¬ (marker ++ e ≠ [] ∧ (marker ++ e).head? ≠ some '.') := by
  simp [marker]

theorem take_parent_add (p : Path) (pos : Nat) :
    p.take ((parentPart p).length + pos) = parentPart p ++ (filename p).take pos := by
  have h := @List.take_append _ (parentPart p) (filename p) pos
  rw [parentPart_append_filename] at h
  exact h

theorem outPathOf_eq (p : Path) :
    outPathOf p = if leadingDotName (filename p) then p ++ marker else specOutPath p := by
  unfold outPathOf replaceExtension extension specOutPath specSplit
  simp only [marker_head, if_false]
  rw [findExtension_eq]
  by_cases hd : leadingDotName (filename p) = true
  · simp [hd]
  · simp only [hd, Bool.false_eq_true, if_false]
    cases hr : rfind '.' (filename p) with
    | none =>
      simp only [List.append_nil]
      rw [parentPart_append_filename]
    | some pos =>
      simp only [take_parent_add, List.append_assoc]

theorem length_outPathOf (p : Path) : (outPathOf p).length = p.length + 6 := by
  unfold outPathOf replaceExtension extension
  simp only [marker_head, if_false]
  cases hr : findExtension (filename p) with
  | none => simp [marker]
  | some pos =>
    simp only [take_parent_add, List.length_append, List.length_take, List.length_drop]
    have h1 : (parentPart p).length + (filename p).length = p.length := by
      rw [← List.length_append, parentPart_append_filename]
    have h2 : marker.length = 6 := by simp [marker]
    omega

theorem outPathOf_ne (p : Path) : outPathOf p ≠ p := by
  intro h
  have := length_outPathOf p
  rw [h] at this
  omega


/-! ## Symbol table: lemmas -/

theorem find_eq_lookup (tbl : SymbolTable) (key : String) :
    find tbl key = (tbl.lookup key).map (fun v => (key, v)) := by
  induction tbl with
  | nil => simp [find]
  | cons kv rest ih =>
    obtain ⟨k, v⟩ := kv
    unfold find at ih ⊢
    by_cases h : k = key
    · subst h; simp [List.lookup]
    · have h2 : (key == k) = false := by
        simp only [beq_eq_false_iff_ne, ne_eq]
        exact fun e => h e.symm
      simp [List.lookup, h, h2, ih]

theorem filterNames_foldl (tbl : SymbolTable) (names : List String) (acc : List NameOffsetPair) :
    names.foldl
      (fun offsets str =>
        match find tbl str with
        | some kv => offsets ++ [(kv.1, kv.2)]
        | none => offsets)
      acc = acc ++ specFilter tbl names := by
  induction names generalizing acc with
  | nil => simp [specFilter]
  | cons n rest ih =>
    simp only [List.foldl_cons, specFilter]
    rw [ih, find_eq_lookup]
    cases tbl.lookup n with
    | none => simp
    | some v => simp

theorem lookup_isSome_iff (tbl : SymbolTable) (n : String) :
    (tbl.lookup n).isSome ↔ n ∈ keys tbl := by
  induction tbl with
  | nil => simp [keys]
  | cons kv rest ih =>
    obtain ⟨k, v⟩ := kv
    unfold keys at ih ⊢
    by_cases h : n = k
    · subst h; simp [List.lookup]
    · have h2 : (n == k) = false := by simpa using h
      simp [List.lookup, h2, ih, h]

theorem specFilter_names (tbl : SymbolTable) (names : List String) :
    (specFilter tbl names).map Prod.fst = names.filter (fun n => decide (n ∈ keys tbl)) := by
  induction names with
  | nil => simp [specFilter]
  | cons n rest ih =>
    simp only [specFilter, List.filter_cons]
    have := lookup_isSome_iff tbl n
    cases hl : tbl.lookup n with
    | none =>
      rw [hl] at this
      simp only [Option.isSome_none, Bool.false_eq_true, false_iff] at this
      simp [this, ih]
    | some v =>
      rw [hl] at this
      simp only [Option.isSome_some, true_iff] at this
      simp [this, ih]

theorem specFilter_mem (tbl : SymbolTable) (names : List String) (pr : NameOffsetPair)
    (h : pr ∈ specFilter tbl names) : pr.1 ∈ names ∧ tbl.lookup pr.1 = some pr.2 := by
  induction names with
  | nil => simp [specFilter] at h
  | cons n rest ih =>
    simp only [specFilter] at h
    cases hl : tbl.lookup n with
    | none =>
      rw [hl] at h
      have := ih h
      exact ⟨List.mem_cons_of_mem _ this.1, this.2⟩
    | some v =>
      rw [hl] at h
      simp only [List.mem_cons] at h
      rcases h with h | h
      · subst h; exact ⟨List.mem_cons_self _ _, hl⟩
      · have := ih h
        exact ⟨List.mem_cons_of_mem _ this.1, this.2⟩


/-! ## Patcher: lemmas -/

theorem read_store_same (fs : FileSys) (p : Path) (bytes : List Nat) :
    (fs.store p bytes).read p = some bytes := by
  simp [FileSys.store, FileSys.read]

theorem read_store_of_ne (fs : FileSys) (p q : Path) (bytes : List Nat)
    (h : fs.target q ≠ fs.target p) : (fs.store p bytes).read q = fs.read q := by
  simp [FileSys.store, FileSys.read, h]

theorem read_store_of_eq (fs : FileSys) (p q : Path) (bytes : List Nat)
    (h : fs.target q = fs.target p) : (fs.store p bytes).read q = some bytes := by
  simp [FileSys.store, FileSys.read, h]

theorem store_store (fs : FileSys) (p : Path) (a b : List Nat) :
    (fs.store p a).store p b = fs.store p b := by
  unfold FileSys.store
  simp only [FileSys.mk.injEq, true_and]
  funext t
  by_cases h : t = fs.target p
  · simp [h]
  · simp [h]

theorem read_store_isSome (fs : FileSys) (p q : Path) (bytes : List Nat)
    (h : (fs.read q).isSome = true) : ((fs.store p bytes).read q).isSome = true := by
  by_cases ht : fs.target q = fs.target p
  · rw [read_store_of_eq fs p q bytes ht]; rfl
  · rw [read_store_of_ne fs p q bytes ht]; exact h

theorem written_append (a b : List Event) : written (a ++ b) = written a ++ written b := by
  induction a with
  | nil => rfl
  | cons e rest ih => cases e <;> simp [written, ih]

/-- The buffer after the stores of a request, in request order. -/
theorem applyOffsets_snd (inSize : Nat) (offsets : List NameOffsetPair) (buf : List Nat) :
    (applyOffsets inSize offsets buf).2 =
      if ∀ pr ∈ offsets, pr.2 < inSize then
        some (offsets.foldl (fun b pr => b.set pr.2 int3) buf)
      else none := by
  induction offsets generalizing buf with
  | nil => simp [applyOffsets]
  | cons pr rest ih =>
    unfold applyOffsets
    by_cases h : pr.2 ≥ inSize
    · have : ¬ ∀ q ∈ pr :: rest, q.2 < inSize := fun hall =>
        absurd (hall pr (List.mem_cons_self _ _)) (by omega)
      simp only [h, if_true, this, if_false]
    · simp only [h, if_false, List.foldl_cons, ih]
      have hlt : pr.2 < inSize := by omega
      simp only [List.mem_cons, forall_eq_or_imp, hlt, true_and]

theorem applyOffsets_written (inSize : Nat) (offsets : List NameOffsetPair) (buf : List Nat) :
    written (applyOffsets inSize offsets buf).1 = [] := by
  induction offsets generalizing buf with
  | nil => simp [applyOffsets, written]
  | cons pr rest ih =>
    unfold applyOffsets
    by_cases h : pr.2 ≥ inSize
    · simp [h, written]
    · simp [h, written, ih]

theorem applyOffsets_fileOps (inSize : Nat) (offsets : List NameOffsetPair) (buf : List Nat) :
    fileOps (applyOffsets inSize offsets buf).1 = [] := by
  induction offsets generalizing buf with
  | nil => simp [applyOffsets, fileOps]
  | cons pr rest ih =>
    unfold applyOffsets
    by_cases h : pr.2 ≥ inSize
    · simp [h, fileOps]
    · simp [h, fileOps, ih]

theorem applyOffsets_invalid (inSize : Nat) (offsets : List NameOffsetPair) (buf : List Nat) :
    Event.errs Msg.invalidOffset ∈ (applyOffsets inSize offsets buf).1 ↔
      ∃ pr ∈ offsets, inSize ≤ pr.2 := by
  induction offsets generalizing buf with
  | nil => simp [applyOffsets]
  | cons pr rest ih =>
    unfold applyOffsets
    by_cases h : pr.2 ≥ inSize
    · simp only [h, if_true, List.mem_singleton, true_iff]
      exact ⟨pr, List.mem_cons_self _ _, h⟩
    · simp only [h, if_false, List.mem_cons, ih, exists_eq_or_imp]
      simp

theorem applyOffsets_bufStore (inSize : Nat) (offsets : List NameOffsetPair) (buf : List Nat)
    (o v : Nat) (h : Event.bufStore o v ∈ (applyOffsets inSize offsets buf).1) : o < inSize := by
  induction offsets generalizing buf with
  | nil => simp [applyOffsets] at h
  | cons pr rest ih =>
    unfold applyOffsets at h
    by_cases hge : pr.2 ≥ inSize
    · simp [hge] at h
    · simp only [hge, if_false, List.mem_cons] at h
      rcases h with h | h | h
      · cases h
      · cases h; omega
      · exact ih _ h

theorem length_patched (offsets : List NameOffsetPair) (buf : List Nat) :
    (offsets.foldl (fun b pr => b.set pr.2 int3) buf).length = buf.length := by
  induction offsets generalizing buf with
  | nil => rfl
  | cons pr rest ih => simp [ih]

theorem getElem?_patched (offsets : List NameOffsetPair) (buf : List Nat) (i : Nat)
    (hi : i < buf.length) :
    (offsets.foldl (fun b pr => b.set pr.2 int3) buf)[i]? =
      if i ∈ offsets.map Prod.snd then some int3 else buf[i]? := by
  induction offsets generalizing buf with
  | nil => simp
  | cons pr rest ih =>
    simp only [List.foldl_cons, List.map_cons, List.mem_cons]
    rw [ih _ (by simpa using hi)]
    by_cases hm : i ∈ rest.map Prod.snd
    · simp [hm]
    · simp only [hm, if_false, or_false]
      by_cases he : i = pr.2
      · subst he
        simp [hi]
      · simp only [he, if_false]
        rw [List.getElem?_set_ne (fun h => he h.symm)]

/-- The run of the patcher once the input is open, the output created and the image
read: only the loop and the write step remain. -/
theorem insertPayload_reached (env : Env) (fs : FileSys) (fname : Path)
    (offsets : List NameOffsetPair) (image : List Nat)
    (hex : (fs.read fname).isSome = true) (hopen : env.openFails fname = false)
    (hcreate : env.createFails (outPathOf fname) = false)
    (hread : env.readFails fname = false) (hne : offsets ≠ [])
    (hin : (fs.store (outPathOf fname) []).read fname = some image) :
    insertPayload env fs fname offsets =
      match applyOffsets image.length offsets image with
      | (patching, none) =>
        ⟨fs.store (outPathOf fname) [],
          [Event.openInput fname, Event.createOutput (outPathOf fname),
            Event.readInput fname image.length] ++ patching⟩
      | (patching, some buf) =>
        match env.write (outPathOf fname) with
        | WriteResult.complete =>
          ⟨(fs.store (outPathOf fname) []).store (outPathOf fname) buf,
            [Event.openInput fname, Event.createOutput (outPathOf fname),
              Event.readInput fname image.length] ++ patching ++
              [Event.writeOutput (outPathOf fname) buf]⟩
        | WriteResult.failed reached reported =>
          ⟨(fs.store (outPathOf fname) []).store (outPathOf fname) (buf.take reached),
            [Event.openInput fname, Event.createOutput (outPathOf fname),
              Event.readInput fname image.length] ++ patching ++
              [Event.writeOutput (outPathOf fname) buf] ++
              (if reported then [Event.errs Msg.errorWriting] else [])⟩ := by
  have he : offsets.isEmpty = false := by
    cases offsets with
    | nil => exact absurd rfl hne
    | cons a b => rfl
  have hex2 : (fs.read fname).isNone = false := by
    cases h : fs.read fname with
    | none => rw [h] at hex; cases hex
    | some x => rfl
  unfold insertPayload
  simp only [he, Bool.false_eq_true, if_false, hex2, hopen, Bool.or_self, hcreate, hin, hread]

theorem written_tail (reported : Bool) :
    written (if reported then [Event.errs Msg.errorWriting] else []) = [] := by
  cases reported <;> rfl

theorem written_reached (env : Env) (fs : FileSys) (fname : Path)
    (offsets : List NameOffsetPair) (image : List Nat)
    (hex : (fs.read fname).isSome = true) (hopen : env.openFails fname = false)
    (hcreate : env.createFails (outPathOf fname) = false)
    (hread : env.readFails fname = false) (hne : offsets ≠ [])
    (hin : (fs.store (outPathOf fname) []).read fname = some image)
    (hlt : ∀ pr ∈ offsets, pr.2 < image.length) :
    written (insertPayload env fs fname offsets).trace =
        [(outPathOf fname, offsets.foldl (fun b pr => b.set pr.2 int3) image)] ∧
      (env.write (outPathOf fname) = WriteResult.complete →
        (insertPayload env fs fname offsets).fs.read (outPathOf fname) =
          some (offsets.foldl (fun b pr => b.set pr.2 int3) image)) := by
  rw [insertPayload_reached env fs fname offsets image hex hopen hcreate hread hne hin]
  have h2 := applyOffsets_snd image.length offsets image
  have h1 := applyOffsets_written image.length offsets image
  rw [if_pos hlt] at h2
  rcases hr : applyOffsets image.length offsets image with ⟨patching, res⟩
  rw [hr] at h1 h2
  simp only at h1 h2
  subst h2
  cases hw : env.write (outPathOf fname) with
  | complete => simp [written_append, written, h1, read_store_same]
  | failed reached reported => simp [written_append, written, h1, written_tail]

theorem loaded_eq_of_nonempty (fs : FileSys) (fname : Path) (image : List Nat)
    (hin : (fs.store (outPathOf fname) []).read fname = some image) (hpos : 0 < image.length) :
    fs.target fname ≠ fs.target (outPathOf fname) ∧ fs.read fname = some image := by
  have ht : fs.target fname ≠ fs.target (outPathOf fname) := by
    intro h
    rw [read_store_of_eq fs _ fname [] h] at hin
    cases hin
    simp at hpos
  exact ⟨ht, by rw [← read_store_of_ne fs _ fname [] ht]; exact hin⟩

/-- C1. When the input opens, the output is created and the image of length L is read,
a non-empty request whose offsets are all below L makes the patcher hand exactly one
buffer to the write step, for the output path: it has length L, its byte i is 0xCC
when i is a requested offset and the byte i of the image otherwise, and it is the
content of the output file when the write succeeds. The image is the content the
input had before the run. A request with the same set of offsets (an offset named
twice or once, in any order) gives the same buffer. -/
theorem insertPayload_success (env : Env) (fs : FileSys) (fname : Path)
    (offsets : List NameOffsetPair) (image : List Nat)
    (hopen : env.openFails fname = false)
    (hcreate : env.createFails (outPathOf fname) = false)
    (hread : env.readFails fname = false) (hne : offsets ≠ [])
    (hin : (fs.store (outPathOf fname) []).read fname = some image)
    (hlt : ∀ pr ∈ offsets, pr.2 < image.length) :
    ∃ buf : List Nat,
      written (insertPayload env fs fname offsets).trace = [(outPathOf fname, buf)] ∧
      buf.length = image.length ∧
      (∀ i, i < image.length →
        buf[i]? = if i ∈ offsets.map Prod.snd then some 0xCC else image[i]?) ∧
      fs.read fname = some image ∧
      (env.write (outPathOf fname) = WriteResult.complete →
        (insertPayload env fs fname offsets).fs.read (outPathOf fname) = some buf) ∧
      (∀ offsets2 : List NameOffsetPair, offsets2 ≠ [] →
        (∀ o, o ∈ offsets2.map Prod.snd ↔ o ∈ offsets.map Prod.snd) →
        written (insertPayload env fs fname offsets2).trace = [(outPathOf fname, buf)]) := by
  have hpos : 0 < image.length := by
    cases offsets with
    | nil => exact absurd rfl hne
    | cons pr rest =>
      have := hlt pr (List.mem_cons_self _ _)
      omega
  have hex : (fs.read fname).isSome = true := by
    rw [(loaded_eq_of_nonempty fs fname image hin hpos).2]
    rfl
  have hw := written_reached env fs fname offsets image hex hopen hcreate hread hne hin hlt
  refine ⟨_, hw.1, length_patched offsets image, fun i hi => getElem?_patched offsets image i hi,
    (loaded_eq_of_nonempty fs fname image hin hpos).2, hw.2, ?_⟩
  intro offsets2 hne2 hsame
  have hlt2 : ∀ pr ∈ offsets2, pr.2 < image.length := by
    intro pr hpr
    have hm : pr.2 ∈ offsets.map Prod.snd := (hsame pr.2).mp (List.mem_map_of_mem _ hpr)
    obtain ⟨q, hq, hqe⟩ := List.mem_map.mp hm
    rw [← hqe]
    exact hlt q hq
  rw [(written_reached env fs fname offsets2 image hex hopen hcreate hread hne2 hin hlt2).1]
  have hbuf : offsets2.foldl (fun b pr => b.set pr.2 int3) image =
      offsets.foldl (fun b pr => b.set pr.2 int3) image := by
    apply List.ext_getElem?
    intro i
    by_cases hi : i < image.length
    · rw [getElem?_patched offsets2 image i hi, getElem?_patched offsets image i hi]
      by_cases hm : i ∈ offsets.map Prod.snd
      · rw [if_pos hm, if_pos ((hsame i).mpr hm)]
      · rw [if_neg hm, if_neg (fun h => hm ((hsame i).mp h))]
    · have h1 : (offsets2.foldl (fun b pr => b.set pr.2 int3) image).length ≤ i := by
        rw [length_patched]; omega
      have h2 : (offsets.foldl (fun b pr => b.set pr.2 int3) image).length ≤ i := by
        rw [length_patched]; omega
      rw [List.getElem?_eq_none h1, List.getElem?_eq_none h2]
  rw [hbuf]

/-- C1, at a request naming offset 1 twice and offset 3 once on a file of four bytes:
the buffer written is the input with 0xCC at 1 and 3, as for the request naming
offset 1 once. -/
theorem insertPayload_success_witness :
    ∃ buf : List Nat,
      written (insertPayload noFailure fourBytes "a.out".toList
        [("f", 1), ("g", 3), ("h", 1)]).trace = [(outPathOf "a.out".toList, buf)] ∧
      buf.length = 4 ∧
      (∀ i, i < 4 →
        buf[i]? = if i ∈ [1, 3, 1] then some 0xCC else [0x55, 0x48, 0x89, 0xC3][i]?) ∧
      fourBytes.read "a.out".toList = some [0x55, 0x48, 0x89, 0xC3] ∧
      (noFailure.write (outPathOf "a.out".toList) = WriteResult.complete →
        (insertPayload noFailure fourBytes "a.out".toList
          [("f", 1), ("g", 3), ("h", 1)]).fs.read (outPathOf "a.out".toList) = some buf) ∧
      (∀ offsets2 : List NameOffsetPair, offsets2 ≠ [] →
        (∀ o, o ∈ offsets2.map Prod.snd ↔ o ∈ [1, 3, 1]) →
        written (insertPayload noFailure fourBytes "a.out".toList offsets2).trace =
          [(outPathOf "a.out".toList, buf)]) :=
  insertPayload_success noFailure fourBytes "a.out".toList [("f", 1), ("g", 3), ("h", 1)]
    [0x55, 0x48, 0x89, 0xC3] (by decide) (by decide) (by decide) (by decide) (by decide)
    (by decide)

theorem bufStore_in_bounds (env : Env) (fs : FileSys) (fname : Path)
    (offsets : List NameOffsetPair) (o v : Nat)
    (h : Event.bufStore o v ∈ (insertPayload env fs fname offsets).trace) :
    ∃ image, (fs.store (outPathOf fname) []).read fname = some image ∧
      fs.read fname = some image ∧ o < image.length := by
  unfold insertPayload at h
  by_cases he : offsets.isEmpty = true
  · simp [he] at h
  · by_cases h1 : ((fs.read fname).isNone || env.openFails fname) = true
    · simp [he, h1] at h
    · by_cases h2 : env.createFails (outPathOf fname) = true
      · simp [he, h1, h2] at h
      · cases hin : (fs.store (outPathOf fname) []).read fname with
        | none => simp [he, h1, h2, hin] at h
        | some image =>
          have key : o < image.length → ∃ image, (fs.store (outPathOf fname) []).read fname =
              some image ∧ fs.read fname = some image ∧ o < image.length := fun ho =>
            ⟨image, hin, (loaded_eq_of_nonempty fs fname image hin (by omega)).2, ho⟩
          rw [hin] at key
          apply key
          simp only [he, h1, h2, hin, if_false] at h
          by_cases h3 : env.readFails fname = true
          · simp [h3] at h
          · simp only [h3, if_false] at h
            have hb := applyOffsets_bufStore image.length offsets image o v
            rcases hr : applyOffsets image.length offsets image with ⟨patching, res⟩
            rw [hr] at h hb
            apply hb
            cases res with
            | none => simpa using h
            | some buf =>
              cases hw : env.write (outPathOf fname) with
              | complete => simpa [hw] using h
              | failed reached reported => cases reported <;> simpa [hw] using h

/-- C3. When the input opens, the output is created and the image of length L is read,
a non-empty request makes the patcher signal the invalid-offset error if and only if
one of its offsets is at least L; when it is signalled no buffer reaches the write
step, whatever valid pairs came first. In every run, each store into the buffer is at
an index below the length of the image read, which is then the content the input had
before the run. -/
theorem insertPayload_bounds_check (env : Env) (fs : FileSys) (fname : Path)
    (offsets : List NameOffsetPair) (image : List Nat)
    (hex : (fs.read fname).isSome = true) (hopen : env.openFails fname = false)
    (hcreate : env.createFails (outPathOf fname) = false)
    (hread : env.readFails fname = false) (hne : offsets ≠ [])
    (hin : (fs.store (outPathOf fname) []).read fname = some image) :
    (Event.errs Msg.invalidOffset ∈ (insertPayload env fs fname offsets).trace ↔
        ∃ pr ∈ offsets, image.length ≤ pr.2) ∧
      (Event.errs Msg.invalidOffset ∈ (insertPayload env fs fname offsets).trace →
        written (insertPayload env fs fname offsets).trace = []) ∧
      (∀ (env2 : Env) (fs2 : FileSys) (fname2 : Path) (offsets2 : List NameOffsetPair)
        (o v : Nat), Event.bufStore o v ∈ (insertPayload env2 fs2 fname2 offsets2).trace →
        ∃ image2, (fs2.store (outPathOf fname2) []).read fname2 = some image2 ∧
          fs2.read fname2 = some image2 ∧ o < image2.length) := by
  have hinv := applyOffsets_invalid image.length offsets image
  have hsnd := applyOffsets_snd image.length offsets image
  have hwr := applyOffsets_written image.length offsets image
  rw [insertPayload_reached env fs fname offsets image hex hopen hcreate hread hne hin]
  rcases hr : applyOffsets image.length offsets image with ⟨patching, res⟩
  rw [hr] at hinv hsnd hwr
  simp only at hinv hsnd hwr
  refine ⟨?_, ?_, bufStore_in_bounds⟩
  · rw [← hinv]
    cases res with
    | none => simp
    | some buf =>
      cases hw : env.write (outPathOf fname) with
      | complete => simp
      | failed reached reported => cases reported <;> simp
  · cases res with
    | none =>
      intro _
      simp [written_append, written, hwr]
    | some buf =>
      intro hmem
      exfalso
      have hp : Event.errs Msg.invalidOffset ∈ patching := by
        cases hw : env.write (outPathOf fname) with
        | complete => simp [hw] at hmem; exact hmem
        | failed reached reported => cases reported <;> simp [hw] at hmem <;> exact hmem
      obtain ⟨pr, hpr, hge⟩ := hinv.mp hp
      by_cases hall : ∀ pr ∈ offsets, pr.2 < image.length
      · have := hall pr hpr
        omega
      · rw [if_neg hall] at hsnd
        cases hsnd

/-- C3, at a request whose first pair is valid and whose second is out of bounds on a
file of four bytes. -/
theorem insertPayload_bounds_check_witness :
    (Event.errs Msg.invalidOffset ∈
        (insertPayload noFailure fourBytes "a.out".toList [("f", 1), ("g", 4)]).trace ↔
        ∃ pr ∈ [(("f", 1) : NameOffsetPair), ("g", 4)], 4 ≤ pr.2) ∧
      (Event.errs Msg.invalidOffset ∈
        (insertPayload noFailure fourBytes "a.out".toList [("f", 1), ("g", 4)]).trace →
        written (insertPayload noFailure fourBytes "a.out".toList
          [("f", 1), ("g", 4)]).trace = []) ∧
      (∀ (env2 : Env) (fs2 : FileSys) (fname2 : Path) (offsets2 : List NameOffsetPair)
        (o v : Nat), Event.bufStore o v ∈ (insertPayload env2 fs2 fname2 offsets2).trace →
        ∃ image2, (fs2.store (outPathOf fname2) []).read fname2 = some image2 ∧
          fs2.read fname2 = some image2 ∧ o < image2.length) :=
  insertPayload_bounds_check noFailure fourBytes "a.out".toList [("f", 1), ("g", 4)]
    [0x55, 0x48, 0x89, 0xC3] (by decide) (by decide) (by decide) (by decide) (by decide)
    (by decide)

theorem isEmpty_false_of_mem (offsets : List NameOffsetPair) (pr : NameOffsetPair)
    (h : pr ∈ offsets) : offsets.isEmpty = false := by
  cases offsets with
  | nil => simp at h
  | cons a b => rfl

theorem loaded_length_le (fs : FileSys) (fname : Path) (image loaded : List Nat)
    (hpre : fs.read fname = some image)
    (hin : (fs.store (outPathOf fname) []).read fname = some loaded) :
    loaded.length ≤ image.length := by
  by_cases ht : fs.target fname = fs.target (outPathOf fname)
  · rw [read_store_of_eq fs _ fname [] ht] at hin
    cases hin
    simp
  · rw [read_store_of_ne fs _ fname [] ht, hpre] at hin
    cases hin
    exact Nat.le_refl _

/-- C6, against the claim as stated: on a file of four bytes and a request for offset
9, the invalid-offset error is signalled and the output path, which named no file,
names an empty file afterwards; an older output file of three bytes is emptied. -/
theorem invalid_offset_leaves_empty_output :
    Event.errs Msg.invalidOffset ∈
        (insertPayload noFailure fourBytes "a.out".toList [("f", 9)]).trace ∧
      fourBytes.read "a.here3.out".toList = none ∧
      (insertPayload noFailure fourBytes "a.out".toList [("f", 9)]).fs.read
        "a.here3.out".toList = some [] ∧
      withOldOutput.read "a.here3.out".toList = some [1, 2, 3] ∧
      (insertPayload noFailure withOldOutput "a.out".toList [("f", 9)]).fs.read
        "a.here3.out".toList = some [] := by
  decide

/-- C6, amended. For an input image of length L and a request containing an offset at
least L, no buffer reaches the write step. The file system is unchanged when the input
cannot be opened or the output cannot be created; otherwise it is left as the creation
step of line 49 leaves it, the file the output path names being empty: the output is
created or truncated before the image is read and the offsets are checked. -/
theorem insertPayload_invalid_offset (env : Env) (fs : FileSys) (fname : Path)
    (offsets : List NameOffsetPair) (image : List Nat)
    (hpre : fs.read fname = some image) (hbad : ∃ pr ∈ offsets, image.length ≤ pr.2) :
    written (insertPayload env fs fname offsets).trace = [] ∧
      (if env.openFails fname || env.createFails (outPathOf fname) then
        (insertPayload env fs fname offsets).fs = fs
      else
        (insertPayload env fs fname offsets).fs = fs.store (outPathOf fname) [] ∧
          (insertPayload env fs fname offsets).fs.read (outPathOf fname) = some []) := by
  obtain ⟨pr, hpr, hge⟩ := hbad
  have he := isEmpty_false_of_mem offsets pr hpr
  have hne : offsets ≠ [] := by
    intro h
    rw [h] at he
    simp at he
  have hex : (fs.read fname).isSome = true := by rw [hpre]; rfl
  have hex2 : (fs.read fname).isNone = false := by rw [hpre]; rfl
  by_cases hopen : env.openFails fname = true
  · unfold insertPayload
    simp [he, hopen, written]
  · simp only [Bool.not_eq_true] at hopen
    by_cases hcreate : env.createFails (outPathOf fname) = true
    · unfold insertPayload
      simp [he, hex2, hopen, hcreate, written]
    · simp only [Bool.not_eq_true] at hcreate
      obtain ⟨loaded, hin⟩ := Option.isSome_iff_exists.mp
        (read_store_isSome fs (outPathOf fname) fname [] hex)
      have hle := loaded_length_le fs fname image loaded hpre hin
      by_cases hread : env.readFails fname = true
      · unfold insertPayload
        simp only [he, Bool.false_eq_true, if_false, hex2, hopen, Bool.or_self, hcreate, hin,
          hread, if_true]
        exact ⟨by simp [written], trivial, read_store_same fs _ []⟩
      · simp only [Bool.not_eq_true] at hread
        rw [insertPayload_reached env fs fname offsets loaded hex hopen hcreate hread hne hin]
        have hsnd := applyOffsets_snd loaded.length offsets loaded
        have hwr := applyOffsets_written loaded.length offsets loaded
        have hall : ¬ ∀ q ∈ offsets, q.2 < loaded.length := fun hall => by
          have := hall pr hpr
          omega
        rw [if_neg hall] at hsnd
        rcases hr : applyOffsets loaded.length offsets loaded with ⟨patching, res⟩
        rw [hr] at hsnd hwr
        simp only at hsnd hwr
        subst hsnd
        simp only [hopen, hcreate, Bool.or_self, Bool.false_eq_true, if_false]
        exact ⟨by simp [written_append, written, hwr], trivial, read_store_same fs _ []⟩

/-- C6 amended, at a request for offset 9 on a file of four bytes. -/
theorem insertPayload_invalid_offset_witness :
    written (insertPayload noFailure fourBytes "a.out".toList [("f", 9)]).trace = [] ∧
      (if noFailure.openFails "a.out".toList || noFailure.createFails (outPathOf "a.out".toList)
        then (insertPayload noFailure fourBytes "a.out".toList [("f", 9)]).fs = fourBytes
      else
        (insertPayload noFailure fourBytes "a.out".toList [("f", 9)]).fs =
            fourBytes.store (outPathOf "a.out".toList) [] ∧
          (insertPayload noFailure fourBytes "a.out".toList [("f", 9)]).fs.read
            (outPathOf "a.out".toList) = some []) :=
  insertPayload_invalid_offset noFailure fourBytes "a.out".toList [("f", 9)]
    [0x55, 0x48, 0x89, 0xC3] (by decide) ⟨("f", 9), by decide, by decide⟩

theorem filterNames_eq_specFilter (tbl : SymbolTable) (names : List String) :
    filterNames tbl names = specFilter tbl names := by
  unfold filterNames
  rw [filterNames_foldl]
  simp

theorem specFilter_nil_of_no_key (tbl : SymbolTable) (names : List String)
    (h : ∀ n ∈ names, n ∉ keys tbl) : specFilter tbl names = [] := by
  induction names with
  | nil => rfl
  | cons n rest ih =>
    have hn := h n (List.mem_cons_self _ _)
    have hl : tbl.lookup n = none := by
      cases hl : tbl.lookup n with
      | none => rfl
      | some v =>
        exfalso
        apply hn
        rw [← lookup_isSome_iff, hl]
        rfl
    simp only [specFilter, hl]
    exact ih (fun m hm => h m (List.mem_cons_of_mem _ hm))

/-- C7. Called with an empty request the patcher leaves the file system as it was and
performs no file operation (no open, create, read or write). When the loader accepts
the input and none of the requested names is a key of the symbol table, main reaches
the patcher with an empty request, returns zero and leaves the file system as it
was. -/
theorem insertPayload_empty_request (env : Env) (fs : FileSys) (fname : Path) :
    (insertPayload env fs fname []).fs = fs ∧
      fileOps (insertPayload env fs fname []).trace = [] ∧
      (∀ (obj : ObjectFile) (funcNames : List String),
        obj.isRelocatableObject = false → (obj.arch = Arch.x86 ∨ obj.arch = Arch.x86_64) →
        (∀ n ∈ funcNames, n ∉ keys (gatherOffsets obj.compileUnits)) →
        ∃ r, main (Loaded.object obj) env fs fname funcNames = some r ∧
          r.ret = 0 ∧ exitStatus r.ret = 0 ∧ r.fs = fs ∧ fileOps r.trace = [] ∧
          r.trace = [Event.outs Msg.nothingToDo]) := by
  refine ⟨rfl, rfl, ?_⟩
  intro obj funcNames hrel harch hkeys
  have hf : filterNames (gatherOffsets obj.compileUnits) funcNames = [] := by
    rw [filterNames_eq_specFilter]
    exact specFilter_nil_of_no_key _ _ hkeys
  have hcond : (obj.isRelocatableObject || (obj.arch != Arch.x86 && obj.arch != Arch.x86_64))
      = false := by
    rcases harch with h | h <;> simp [hrel, h]
  unfold main
  simp only [hcond, Bool.false_eq_true, if_false, hf]
  exact ⟨_, rfl, rfl, rfl, rfl, rfl, rfl⟩

/-- C7, at an executable whose only function is `f` and a request for `g`. -/
theorem insertPayload_empty_request_witness :
    ∃ r, main (Loaded.object (executable [subprogram "f" "_Z1fv" 1 3])) noFailure fourBytes
        "a.out".toList ["g"] = some r ∧
      r.ret = 0 ∧ exitStatus r.ret = 0 ∧ r.fs = fourBytes ∧ fileOps r.trace = [] ∧
      r.trace = [Event.outs Msg.nothingToDo] :=
  (insertPayload_empty_request noFailure fourBytes "a.out".toList).2.2
    (executable [subprogram "f" "_Z1fv" 1 3]) ["g"] rfl (Or.inr rfl) (by decide)

/-- C10, against the claim as stated: the output path differs from the input path, yet
when it names the same file as the input path (a link), creating the output truncates
the input before it is read: the run finds an image of length zero, reports an invalid
offset and leaves the input empty. -/
theorem linked_output_truncates_input :
    outPathOf "a.out".toList ≠ "a.out".toList ∧
      linkedOutput.read "a.out".toList = some [0x55, 0x48, 0x89, 0xC3] ∧
      (linkedOutput.store (outPathOf "a.out".toList) []).read "a.out".toList = some [] ∧
      (insertPayload noFailure linkedOutput "a.out".toList [("f", 1)]).fs.read
        "a.out".toList = some [] ∧
      Event.errs Msg.invalidOffset ∈
        (insertPayload noFailure linkedOutput "a.out".toList [("f", 1)]).trace := by
  decide

theorem read_insertPayload_input (env : Env) (fs : FileSys) (p : Path)
    (offsets : List NameOffsetPair) (ht : fs.target p ≠ fs.target (outPathOf p)) :
    (insertPayload env fs p offsets).fs.read p = fs.read p := by
  have h1 : ∀ b, (fs.store (outPathOf p) b).read p = fs.read p := fun b =>
    read_store_of_ne fs _ p b ht
  have h2 : ∀ a b, ((fs.store (outPathOf p) a).store (outPathOf p) b).read p = fs.read p := by
    intro a b
    rw [store_store]
    exact h1 b
  unfold insertPayload
  by_cases he : offsets.isEmpty = true
  · simp [he]
  · by_cases hx : ((fs.read p).isNone || env.openFails p) = true
    · simp [he, hx]
    · by_cases hc : env.createFails (outPathOf p) = true
      · simp [he, hx, hc]
      · simp only [he, hx, hc, if_false]
        cases hin : (fs.store (outPathOf p) []).read p with
        | none => exact h1 []
        | some image =>
          simp only
          by_cases hr : env.readFails p = true
          · simp only [hr, if_true]
            exact h1 []
          · simp only [hr, if_false]
            rcases hap : applyOffsets image.length offsets image with ⟨patching, res⟩
            cases res with
            | none => exact h1 []
            | some buf =>
              cases hw : env.write (outPathOf p) with
              | complete => exact h2 [] buf
              | failed reached reported => exact h2 [] (buf.take reached)

/-- C10, amended. The output path differs from the input path, for every input path
(it is six characters longer). So creating or truncating the output file, and every
run of the patcher, leave the input file as it was whenever the output path does not
name the same file as the input path; when it does (a hard or symbolic link), creating
the output empties the input before it is read. -/
theorem outPath_ne_inPath (p : Path) :
    outPathOf p ≠ p ∧
      (outPathOf p).length = p.length + 6 ∧
      (∀ fs : FileSys, fs.target p ≠ fs.target (outPathOf p) →
        (fs.store (outPathOf p) []).read p = fs.read p ∧
          ∀ (env : Env) (offsets : List NameOffsetPair),
            (insertPayload env fs p offsets).fs.read p = fs.read p) ∧
      (∀ fs : FileSys, fs.target p = fs.target (outPathOf p) →
        (fs.store (outPathOf p) []).read p = some []) := by
  refine ⟨outPathOf_ne p, length_outPathOf p, ?_, ?_⟩
  · intro fs ht
    exact ⟨read_store_of_ne fs _ p [] ht, fun env offsets =>
      read_insertPayload_input env fs p offsets ht⟩
  · intro fs ht
    exact read_store_of_eq fs _ p [] ht

/-- C10 amended, at the file system without links holding `a.out` and at the one in
which the output path is a second name of `a.out`. -/
theorem outPath_ne_inPath_witness :
    ((fourBytes.store (outPathOf "a.out".toList) []).read "a.out".toList =
        fourBytes.read "a.out".toList ∧
      ∀ (env : Env) (offsets : List NameOffsetPair),
        (insertPayload env fourBytes "a.out".toList offsets).fs.read "a.out".toList =
          fourBytes.read "a.out".toList) ∧
      (linkedOutput.store (outPathOf "a.out".toList) []).read "a.out".toList = some [] :=
  ⟨(outPath_ne_inPath "a.out".toList).2.2.1 fourBytes (by decide),
    (outPath_ne_inPath "a.out".toList).2.2.2 linkedOutput (by decide)⟩

/-! ## The claims on the exit status -/

theorem exitStatus_neg_one : exitStatus (-1) ≠ 0 := by
  decide

/-- C5, against the claim as stated: on an executable whose function `f` is reported at
address 9 and a file of four bytes, the patcher signals the invalid-offset error and
the program returns zero; it returns zero as well when the output file cannot be
created, and when the write fails with two of the four bytes in the output file. -/
theorem main_returns_zero_on_patch_failure :
    (main (Loaded.object (executable [subprogram "f" "_Z1fv" 9 12])) noFailure fourBytes
        "a.out".toList ["f"]).map
        (fun r => (exitStatus r.ret, decide (Event.errs Msg.invalidOffset ∈ r.trace))) =
        some (0, true) ∧
      (main (Loaded.object (executable [subprogram "f" "_Z1fv" 1 3]))
        ⟨fun _ => false, fun _ => true, fun _ => false, fun _ => WriteResult.complete⟩
        fourBytes "a.out".toList ["f"]).map
        (fun r => (exitStatus r.ret,
          decide (Event.errs (Msg.errorCreating "a.here3.out".toList) ∈ r.trace))) =
        some (0, true) ∧
      (main (Loaded.object (executable [subprogram "f" "_Z1fv" 1 3]))
        ⟨fun _ => false, fun _ => false, fun _ => false, fun _ => WriteResult.failed 2 false⟩
        fourBytes "a.out".toList ["f"]).map
        (fun r => (exitStatus r.ret, r.fs.read "a.here3.out".toList)) =
        some (0, some [0x55, 0xCC]) := by
  decide

/-- C5, amended. The program exits with a non-zero status when the binary cannot be
created from the input and when the object is relocatable or not for x86 or x86-64.
In every run that reaches the patcher it returns zero, whatever the patcher did: when
patching completes, when no requested name matches, and also when the patcher
reported an error (input not opened, output not created, read failure, offset out of
bounds, write failure), which it does on the error stream only. -/
theorem main_exit_status (env : Env) (fs : FileSys) (inputFilename : Path)
    (funcNames : List String) :
    (∃ r, main Loaded.binaryError env fs inputFilename funcNames = some r ∧
        exitStatus r.ret ≠ 0) ∧
      (∀ obj : ObjectFile,
        (obj.isRelocatableObject = true ∨ (obj.arch ≠ Arch.x86 ∧ obj.arch ≠ Arch.x86_64)) →
        ∃ r, main (Loaded.object obj) env fs inputFilename funcNames = some r ∧
          exitStatus r.ret ≠ 0 ∧ r.fs = fs) ∧
      (∀ obj : ObjectFile,
        obj.isRelocatableObject = false → (obj.arch = Arch.x86 ∨ obj.arch = Arch.x86_64) →
        ∃ r, main (Loaded.object obj) env fs inputFilename funcNames = some r ∧
          exitStatus r.ret = 0 ∧
          r.trace = (insertPayload env fs inputFilename
            (filterNames (gatherOffsets obj.compileUnits) funcNames)).trace ∧
          r.fs = (insertPayload env fs inputFilename
            (filterNames (gatherOffsets obj.compileUnits) funcNames)).fs) := by
  refine ⟨⟨_, rfl, exitStatus_neg_one⟩, ?_, ?_⟩
  · intro obj h
    have hcond : (obj.isRelocatableObject || (obj.arch != Arch.x86 && obj.arch != Arch.x86_64))
        = true := by
      rcases h with h | ⟨h1, h2⟩
      · simp [h]
      · simp [h1, h2]
    unfold main
    simp only [hcond, if_true]
    exact ⟨_, rfl, exitStatus_neg_one, rfl⟩
  · intro obj hrel harch
    have hcond : (obj.isRelocatableObject || (obj.arch != Arch.x86 && obj.arch != Arch.x86_64))
        = false := by
      rcases harch with h | h <;> simp [hrel, h]
    unfold main
    simp only [hcond, Bool.false_eq_true, if_false]
    exact ⟨_, rfl, rfl, rfl, rfl⟩

/-- C5 amended, at a relocatable object and at an executable for x86-64. -/
theorem main_exit_status_witness :
    (∃ r, main (Loaded.object ⟨true, Arch.x86_64, []⟩) noFailure fourBytes "a.out".toList
        ["f"] = some r ∧ exitStatus r.ret ≠ 0 ∧ r.fs = fourBytes) ∧
      (∃ r, main (Loaded.object (executable [subprogram "f" "_Z1fv" 9 12])) noFailure
          fourBytes "a.out".toList ["f"] = some r ∧
        exitStatus r.ret = 0 ∧
        r.trace = (insertPayload noFailure fourBytes "a.out".toList
          (filterNames (gatherOffsets (executable [subprogram "f" "_Z1fv" 9 12]).compileUnits)
            ["f"])).trace ∧
        r.fs = (insertPayload noFailure fourBytes "a.out".toList
          (filterNames (gatherOffsets (executable [subprogram "f" "_Z1fv" 9 12]).compileUnits)
            ["f"])).fs) :=
  ⟨(main_exit_status noFailure fourBytes "a.out".toList ["f"]).2.1 ⟨true, Arch.x86_64, []⟩
      (Or.inl rfl),
    (main_exit_status noFailure fourBytes "a.out".toList ["f"]).2.2
      (executable [subprogram "f" "_Z1fv" 9 12]) rfl (Or.inr rfl)⟩

/-! ## The claims on the name filter, the table and the output path -/

/-- C2. The request built by the loop of main is the list obtained by walking the
requested names in order and emitting the name with the offset the table holds for it
when the name is a key, nothing otherwise. So its names are the requested names that
are keys of the table, in requested order and as many times as requested, and every
pair in it is a requested name with the offset of the table. -/
theorem filterNames_spec (tbl : SymbolTable) (funcNames : List String) :
    filterNames tbl funcNames = specFilter tbl funcNames ∧
      (filterNames tbl funcNames).map Prod.fst =
        funcNames.filter (fun n => decide (n ∈ keys tbl)) ∧
      (∀ n, ((filterNames tbl funcNames).map Prod.fst).count n =
        if n ∈ keys tbl then funcNames.count n else 0) ∧
      (∀ pr ∈ filterNames tbl funcNames, pr.1 ∈ funcNames ∧ tbl.lookup pr.1 = some pr.2) := by
  rw [filterNames_eq_specFilter]
  refine ⟨rfl, specFilter_names tbl funcNames, ?_, fun pr h => specFilter_mem tbl funcNames pr h⟩
  intro n
  rw [specFilter_names]
  by_cases h : n ∈ keys tbl
  · rw [if_pos h, List.count_filter (by simpa using h)]
  · rw [if_neg h, List.count_eq_zero]
    intro hmem
    have := (List.mem_filter.mp hmem).2
    simp only [decide_eq_true_eq] at this
    exact h this

/-- C4, at the failing input: a subprogram `f` (linkage name `_Z1fv`) whose low address
is 2^32 + 4096 is entered under both names with the offset 4096, and 4096 is the offset
the patcher receives for it. -/
theorem low_address_truncated :
    find (gatherOffsets [[subprogram "f" "_Z1fv" (2 ^ 32 + 4096) (2 ^ 32 + 4100)]]) "f" =
        some ("f", 4096) ∧
      find (gatherOffsets [[subprogram "f" "_Z1fv" (2 ^ 32 + 4096) (2 ^ 32 + 4100)]]) "_Z1fv" =
        some ("_Z1fv", 4096) ∧
      filterNames (gatherOffsets [[subprogram "f" "_Z1fv" (2 ^ 32 + 4096) (2 ^ 32 + 4100)]])
        ["f"] = [("f", 4096)] := by
  decide

/-- C8, against the claim as stated: for the filename `.bashrc` the last dot-suffix is
the whole name, so that the path described is `.here3.bashrc`; the program derives
`.bashrc.here3`. Likewise `..` gives `...here3`, not `..here3.`. -/
theorem outPath_of_dotfile :
    outPathOf ".bashrc".toList = ".bashrc.here3".toList ∧
      specOutPath ".bashrc".toList = ".here3.bashrc".toList ∧
      outPathOf "dir/..".toList = "dir/...here3".toList ∧
      specOutPath "dir/..".toList = "dir/..here3.".toList := by
  decide

theorem rfind_none (c : Char) (s : List Char) (h : rfind c s = none) : c ∉ s := by
  induction s with
  | nil => simp
  | cons x xs ih =>
    simp only [rfind] at h
    cases hr : rfind c xs with
    | some i => rw [hr] at h; simp at h
    | none =>
      rw [hr] at h
      by_cases hx : x = c
      · simp [hx] at h
      · simp only [List.mem_cons, not_or]
        exact ⟨fun e => hx e.symm, ih hr⟩

theorem rfind_some (c : Char) (s : List Char) (pos : Nat) (h : rfind c s = some pos) :
    ∃ e, s.drop pos = c :: e ∧ c ∉ e := by
  induction s generalizing pos with
  | nil => simp [rfind] at h
  | cons x xs ih =>
    simp only [rfind] at h
    cases hr : rfind c xs with
    | some i =>
      rw [hr] at h
      simp only [Option.some.injEq] at h
      subst h
      exact ih i hr
    | none =>
      rw [hr] at h
      by_cases hx : x = c
      · simp only [hx, if_true, Option.some.injEq] at h
        subst h
        exact ⟨xs, by simp [hx], rfind_none c xs hr⟩
      · simp [hx] at h

theorem specSplit_spec (f : Path) :
    (specSplit f).1 ++ (specSplit f).2 = f ∧
      (((specSplit f).2 = [] ∧ '.' ∉ f) ∨ ∃ e, (specSplit f).2 = '.' :: e ∧ '.' ∉ e) := by
  unfold specSplit
  cases hr : rfind '.' f with
  | none => exact ⟨by simp, Or.inl ⟨rfl, rfind_none _ _ hr⟩⟩
  | some pos => exact ⟨by simp, Or.inr (rfind_some _ _ _ hr)⟩

theorem filename_no_slash (p : Path) (c : Char) (h : c ∈ filename p) : c ≠ '/' := by
  have := List.mem_rtakeWhile_imp h
  simpa using this

theorem parentPart_append (p x : Path) (hx : ∀ c ∈ x, c ≠ '/') :
    parentPart (parentPart p ++ x) = parentPart p := by
  unfold parentPart List.rdropWhile
  rw [List.reverse_append, List.dropWhile_append_of_pos, List.reverse_reverse,
    List.dropWhile_idempotent]
  intro a ha
  simpa using hx a (List.mem_reverse.mp ha)

/-- C8, amended. The extension is the last dot-suffix of the filename, except that `..`
and a filename whose only dot is its first character (`.`, `.bashrc`) have none. The
output path is the input path with `.here3` put before that extension: base and
extension as split at the last dot give base, `.here3`, extension, and a filename
without extension gets `.here3` appended. The directory part is unchanged. -/
theorem outPath_marker_before_extension (p : Path) :
    outPathOf p = (if leadingDotName (filename p) then p ++ marker else specOutPath p) ∧
      parentPart (outPathOf p) = parentPart p ∧
      ((specSplit (filename p)).1 ++ (specSplit (filename p)).2 = filename p ∧
        (((specSplit (filename p)).2 = [] ∧ '.' ∉ filename p) ∨
          ∃ e, (specSplit (filename p)).2 = '.' :: e ∧ '.' ∉ e)) ∧
      outPathOf "program.exe".toList = "program.here3.exe".toList ∧
      outPathOf "program".toList = "program.here3".toList := by
  refine ⟨outPathOf_eq p, ?_, specSplit_spec (filename p), by decide, by decide⟩
  have hm : ∀ c ∈ marker, c ≠ '/' := by decide
  have hsplit := (specSplit_spec (filename p)).1
  rw [outPathOf_eq]
  by_cases hd : leadingDotName (filename p) = true
  · rw [if_pos hd]
    conv_lhs => rw [← parentPart_append_filename p, List.append_assoc]
    apply parentPart_append
    intro c hc
    rcases List.mem_append.mp hc with h | h
    · exact filename_no_slash p c h
    · exact hm c h
  · rw [if_neg hd]
    unfold specOutPath
    rw [List.append_assoc, List.append_assoc]
    apply parentPart_append
    intro c hc
    have hfn : ∀ c, c ∈ (specSplit (filename p)).1 ∨ c ∈ (specSplit (filename p)).2 →
        c ≠ '/' := by
      intro c hc
      apply filename_no_slash p c
      rw [← hsplit]
      exact List.mem_append.mpr hc
    rcases List.mem_append.mp hc with h | h
    · exact hfn c (Or.inl h)
    · rcases List.mem_append.mp h with h | h
      · exact hm c h
      · exact hfn c (Or.inr h)

end Here3
